import Mathlib

/-!
Verification development for the Hamming-code core of the repository
(file src/Part2/hammingcode.py).

Bit strings are embedded as lists of natural numbers (one entry per
character, leftmost character first).  Python loops that carry mutable
counters are embedded as recursive helper functions carrying the same
counters; a Python indexing operation that can raise IndexError is
embedded as an Option-valued function, with none standing for the
exception.
-/

/-- Embeds get_unit_matrix: the identity matrix of the given size. -/
def get_unit_matrix (size : Nat) : List (List Nat) :=
  (List.range size).map fun row_index =>
    (List.range size).map fun col_index =>
      if row_index = col_index then 1 else 0

/-- Loop of extract_data_bits.  Walks the 1-indexed bit positions, counted
from the end of the word; a position matching the running power of two is a
parity position and is skipped, every other position contributes the bit
read from the end of the word.  Returns the final parity counter and the
accumulator (in traversal order; the caller reverses it). -/
def extractLoop (w : List Nat) : List Nat → Nat → List Nat → Nat × List Nat
  | [], parity_bit_index, acc => (parity_bit_index, acc)
  | p :: ps, parity_bit_index, acc =>
    if p = 2 ^ parity_bit_index then
      extractLoop w ps (parity_bit_index + 1) acc
    else
      extractLoop w ps parity_bit_index (acc ++ [w.getD (w.length - p) 0])

/-- Embeds extract_data_bits. -/
def extract_data_bits (encoded_word : List Nat) : List Nat :=
  (extractLoop encoded_word (List.range' 1 encoded_word.length) 0 []).2.reverse

/-- Loop of pos_redundant_bits.  Emits a zero placeholder at each parity
position and otherwise the next data bit taken from the end of the data
word; reading past the start of the data word (Python IndexError on a
negative index beyond the length) is none.  Returns the final counters and
the accumulator in traversal order. -/
def posLoop (data : List Nat) : List Nat → Nat → Nat → List Nat → Option (Nat × Nat × List Nat)
  | [], parity_bit_index, data_bit_index, acc => some (parity_bit_index, data_bit_index, acc)
  | p :: ps, parity_bit_index, data_bit_index, acc =>
    if p = 2 ^ parity_bit_index then
      posLoop data ps (parity_bit_index + 1) data_bit_index (acc ++ [0])
    else if data_bit_index ≤ data.length then
      posLoop data ps parity_bit_index (data_bit_index + 1)
        (acc ++ [data.getD (data.length - data_bit_index) 0])
    else none

/-- Embeds HammingCode.pos_redundant_bits (the method reads only
self.parity_bits, passed here explicitly). -/
def pos_redundant_bits (parity_bits : Nat) (data : List Nat) : Option (List Nat) :=
  (posLoop data (List.range' 1 (data.length + parity_bits)) 0 1 []).map fun st =>
    st.2.2.reverse

/-- Inner loop of calc_parity_bits: the parity value accumulated over all
1-indexed positions (counted from the end) whose binary representation has
the given bit set. -/
def parityValue (array_length : Nat) (arr : List Nat) (parity_bit_index : Nat) : Nat :=
  (List.range' 1 array_length).foldl
    (fun parity_value bit_position =>
      if bit_position &&& 2 ^ parity_bit_index = 2 ^ parity_bit_index then
        parity_value ^^^ arr.getD (array_length - bit_position) 0
      else parity_value) 0

/-- Outer loop of calc_parity_bits: for each parity index in order, store
the computed parity value at the position that is the matching power of
two; an assignment outside the array (Python IndexError) is none. -/
def calcLoop (array_length : Nat) : List Nat → List Nat → Option (List Nat)
  | arr, [] => some arr
  | arr, parity_bit_index :: rest =>
    if 2 ^ parity_bit_index ≤ array_length then
      calcLoop array_length
        (arr.set (array_length - 2 ^ parity_bit_index)
          (parityValue array_length arr parity_bit_index)) rest
    else none

/-- Embeds HammingCode.calc_parity_bits. -/
def calc_parity_bits (parity_bits : Nat) (arr : List Nat) : Option (List Nat) :=
  calcLoop arr.length arr (List.range parity_bits)

/-- Embeds HammingCode.encode: position the redundant bits, then compute
the parity bits. -/
def encode (parity_bits : Nat) (data : List Nat) : Option (List Nat) :=
  (pos_redundant_bits parity_bits data).bind fun positioned_bits =>
    calc_parity_bits parity_bits positioned_bits

/-- Embeds HammingCode.get_check_matrix: row i has a 1 at 1-indexed column
j exactly when j has bit i set. -/
def get_check_matrix (parity_bits codeword_length : Nat) : List (List Nat) :=
  (List.range parity_bits).map fun parity_bit_index =>
    (List.range' 1 codeword_length).map fun bit_position =>
      if bit_position &&& (1 <<< parity_bit_index) ≠ 0 then 1 else 0

/-- Embeds HammingCode.get_generator_matrix: each identity row is extended
with the entries of the corresponding check-matrix column. -/
def get_generator_matrix (parity_bits data_length codeword_length : Nat) : List (List Nat) :=
  let identity_matrix := get_unit_matrix data_length
  let parity_check_matrix := get_check_matrix parity_bits codeword_length
  (List.range data_length).map fun data_bit_index =>
    identity_matrix.getD data_bit_index [] ++
      (List.range parity_bits).map fun parity_bit_index =>
        (parity_check_matrix.getD parity_bit_index []).getD data_bit_index 0

/-- Embeds matrix_multiply: per row, the sum of the pairwise products with
the vector, reduced mod 2; zip truncates to the shorter operand. -/
def matrix_multiply (matrix : List (List Nat)) (vector : List Nat) : List Nat :=
  matrix.map fun row => (List.zipWith (fun x y => x * y) row vector).sum % 2

/-- Embeds int(join(digits), 2) on a list of binary digits: none on the
empty string (Python ValueError), otherwise the value read in base 2. -/
def bitsToNat (digits : List Nat) : Option Nat :=
  if digits.isEmpty then none
  else some (digits.foldl (fun acc d => acc * 2 + d) 0)

/-- Embeds HammingCode.detect_error (the method reads self.check_matrix,
passed here explicitly): the syndrome of the reversed word, read as a
binary integer with row 0 as the least significant bit. -/
def detect_error (check_matrix : List (List Nat)) (arr : List Nat) : Option Nat :=
  bitsToNat (matrix_multiply check_matrix arr.reverse).reverse

/-- Embeds HammingCode.decode.  A nonzero detected position is converted to
a 0-indexed position from the start and that bit is flipped.  An assignment
at a negative Python index (detected position larger than the word length)
is not modelled and is none; no use in the repository reaches it. -/
def decode (check_matrix : List (List Nat)) (encoded_word : List Nat) :
    Option (List Nat × List Nat × Nat × Bool) :=
  (detect_error check_matrix encoded_word).bind fun correction =>
    if correction ≠ 0 then
      if correction ≤ encoded_word.length then
        let c := encoded_word.length - correction
        let corrected := encoded_word.set c (if encoded_word.getD c 0 = 0 then 1 else 0)
        some (corrected, extract_data_bits corrected, c, true)
      else none
    else some (encoded_word, extract_data_bits encoded_word, 0, false)

/-- Embeds HammingCode.check: true when every syndrome entry is zero. -/
def check (check_matrix : List (List Nat)) (codeword : List Nat) : Bool :=
  (matrix_multiply check_matrix codeword.reverse).all fun x => x == 0

/-- The state of a constructed HammingCode object. -/
structure HammingCode where
  parity_bits : Nat
  codeword_length : Nat
  data_length : Nat
  generator_matrix : List (List Nat)
  check_matrix : List (List Nat)
deriving DecidableEq

/-- Embeds HammingCode.__init__: rejects parity_bits below 2 (Python
ValueError, modelled as none), otherwise derives the lengths and builds
both matrices. -/
def HammingCode.init (parity_bits : Nat) : Option HammingCode :=
  if parity_bits < 2 then none
  else
    let codeword_length := 2 ^ parity_bits - 1
    let data_length := codeword_length - parity_bits
    some ⟨parity_bits, codeword_length, data_length,
      get_generator_matrix parity_bits data_length codeword_length,
      get_check_matrix parity_bits codeword_length⟩

/-- Embeds the error injection of ask_user_for_bits and main: XOR the bit
at a 0-indexed position counted from the start of the codeword with 1. -/
def errAt (w : List Nat) (position : Nat) : List Nat :=
  w.set position (w.getD position 0 ^^^ 1)

/-- Modelled from the spec: the row-vector-times-matrix product mod 2 that
the specification asserts reproduces encode; entry j is the sum over i of
d i times matrix entry i j, mod 2.  The source never computes this
product, so it is written from the words of the specification. -/
def rowVectorMatrixProductSpec (d : List Nat) (g : List (List Nat)) : List Nat :=
  (List.range (g.getD 0 []).length).map fun j =>
    ((List.range d.length).map fun i => d.getD i 0 * (g.getD i []).getD j 0).sum % 2

/- Proof-side definitions (not part of the source): positional views of a
bit string used to state the syndrome and layout lemmas. -/

/-- The 0/1 indicator of bit i of the number p. -/
def bitval (p i : Nat) : Nat := if p &&& 2 ^ i ≠ 0 then 1 else 0

/-- The bit of the word w at the 1-indexed position p counted from the end
of the word. -/
def wbit (w : List Nat) (p : Nat) : Nat := w.getD (w.length - p) 0

/-- The plain sum feeding syndrome row i of the word w: over all 1-indexed
positions (from the end) whose binary representation has bit i set. -/
def srowSum (i : Nat) (w : List Nat) : Nat :=
  ((List.range' 1 w.length).map fun p => bitval p i * wbit w p).sum

/-- Syndrome row i of the word w, mod 2. -/
def srow (i : Nat) (w : List Nat) : Nat := srowSum i w % 2

/-- The positioned word (in traversal order: entry t is the bit at the
1-indexed position t+1 counted from the end): block j starts with the zero
placeholder at position 2 to the j, followed by the data bits consumed at
the positions strictly between consecutive powers of two. -/
def posedBits (m : Nat) (data : List Nat) : List Nat :=
  ((List.range m).map fun j =>
    0 :: (List.range' (2 ^ j - j) (2 ^ j - 1)).map fun i =>
      data.getD (data.length - i) 0).flatten

/-- A sample constructed instance with two parity bits. -/
def hcTwo : HammingCode :=
  ⟨2, 3, 1, get_generator_matrix 2 1 3, get_check_matrix 2 3⟩

/-- A sample constructed instance with three parity bits. -/
def hcThree : HammingCode :=
  ⟨3, 7, 4, get_generator_matrix 3 4 7, get_check_matrix 3 7⟩

/-! Basic list and arithmetic helper lemmas. -/

theorem getD_le_of_forall_le (l : List Nat) (i : Nat) (h : ∀ x ∈ l, x ≤ 1) :
    l.getD i 0 ≤ 1 := by
  rcases Nat.lt_or_ge i l.length with hi | hi
  · rw [List.getD_eq_getElem _ _ hi]
    exact h _ (List.getElem_mem hi)
  · rw [List.getD_eq_default _ _ hi]
    exact Nat.zero_le 1

theorem getD_set_eq (l : List Nat) (i v : Nat) (h : i < l.length) :
    (l.set i v).getD i 0 = v := by
  rw [List.getD_eq_getElem _ _ (by simpa using h)]
  simp

theorem getD_set_ne (l : List Nat) {i j : Nat} (v : Nat) (h : i ≠ j) :
    (l.set i v).getD j 0 = l.getD j 0 := by
  rcases Nat.lt_or_ge j l.length with hj | hj
  · rw [List.getD_eq_getElem _ _ (by simpa using hj), List.getD_eq_getElem _ _ hj,
      List.getElem_set_ne h]
  · rw [List.getD_eq_default _ _ (by simpa using hj), List.getD_eq_default _ _ hj]

theorem getD_reverse (l : List Nat) (i : Nat) (h : i < l.length) :
    l.reverse.getD i 0 = l.getD (l.length - 1 - i) 0 := by
  rw [List.getD_eq_getElem _ _ (by simpa using h), List.getElem_reverse,
    List.getD_eq_getElem _ _ (by omega)]

theorem getD_map_range' (f : Nat → Nat) (s c t : Nat) (h : t < c) :
    ((List.range' s c).map f).getD t 0 = f (s + t) := by
  rw [List.getD_eq_getElem _ _ (by simpa using h)]
  simp [List.getElem_range']

theorem foldl_xor_eq_sum_mod (l : List Nat) (a : Nat) (ha : a ≤ 1)
    (hl : ∀ x ∈ l, x ≤ 1) :
    l.foldl (fun u v => u ^^^ v) a = (a + l.sum) % 2 := by
  induction l generalizing a with
  | nil => simpa using (Nat.mod_eq_of_lt (by omega)).symm
  | cons x xs ih =>
    have hx : x ≤ 1 := hl x (by simp)
    have hax : a ^^^ x = (a + x) % 2 := by
      interval_cases a <;> interval_cases x <;> rfl
    have hax1 : a ^^^ x ≤ 1 := by
      rw [hax]; omega
    rw [List.foldl_cons, ih _ hax1 (fun y hy => hl y (by simp [hy])), hax, List.sum_cons]
    omega

theorem sum_map_replace (ps : List Nat) (g g2 : Nat → Nat) (q : Nat)
    (hnd : ps.Nodup) (hq : q ∈ ps) (hoff : ∀ p ∈ ps, p ≠ q → g2 p = g p) :
    (ps.map g2).sum + g q = (ps.map g).sum + g2 q := by
  induction ps with
  | nil => cases hq
  | cons a ps ih =>
    rw [List.nodup_cons] at hnd
    rcases List.mem_cons.mp hq with rfl | hq2
    · have hrest : ps.map g2 = ps.map g := by
        apply List.map_congr_left
        intro p hp
        exact hoff p (by simp [hp]) (by rintro rfl; exact hnd.1 hp)
      rw [List.map_cons, List.map_cons, hrest, List.sum_cons, List.sum_cons]
      omega
    · have hne : a ≠ q := by rintro rfl; exact hnd.1 hq2
      have ha : g2 a = g a := hoff a (by simp) hne
      have := ih hnd.2 hq2 (fun p hp => hoff p (by simp [hp]))
      rw [List.map_cons, List.map_cons, List.sum_cons, List.sum_cons, ha]
      omega

theorem map_range'_getD_rev (l : List Nat) :
    (List.range' 1 l.length).map (fun i => l.getD (l.length - i) 0) = l.reverse := by
  induction l with
  | nil => simp
  | cons x xs ih =>
    have hlen : (x :: xs).length = xs.length + 1 := rfl
    rw [hlen, List.range'_1_concat, List.map_append]
    have h1 : (List.range' 1 xs.length).map (fun i => (x :: xs).getD (xs.length + 1 - i) 0) =
        (List.range' 1 xs.length).map (fun i => xs.getD (xs.length - i) 0) := by
      apply List.map_congr_left
      intro i hi
      rw [List.mem_range'_1] at hi
      have : xs.length + 1 - i = (xs.length - i) + 1 := by omega
      rw [this, List.getD_cons_succ]
    rw [h1, ih]
    have h0 : xs.length + 1 - (1 + xs.length) = 0 := by omega
    simp [h0]

theorem zipWith_range' (g : Nat → Nat → Nat) :
    ∀ (c s : Nat) (v : List Nat), v.length = c →
      List.zipWith g (List.range' s c) v =
        (List.range' s c).map fun p => g p (v.getD (p - s) 0) := by
  intro c
  induction c with
  | zero =>
    intro s v hv
    rw [List.length_eq_zero] at hv
    subst hv
    simp
  | succ c ih =>
    intro s v hv
    cases v with
    | nil => simp at hv
    | cons y ys =>
      have hys : ys.length = c := by simpa using hv
      rw [List.range'_succ, List.zipWith_cons_cons, List.map_cons]
      have hhead : g s ((y :: ys).getD (s - s) 0) = g s y := by
        simp [Nat.sub_self]
      have htail : (List.range' (s + 1) c).map (fun p => g p ((y :: ys).getD (p - s) 0)) =
          (List.range' (s + 1) c).map (fun p => g p (ys.getD (p - (s + 1)) 0)) := by
        apply List.map_congr_left
        intro p hp
        rw [List.mem_range'_1] at hp
        have : p - s = (p - (s + 1)) + 1 := by omega
        rw [this, List.getD_cons_succ]
      rw [hhead, htail, ih (s + 1) ys hys]

/-! Bit-indicator lemmas. -/

theorem bitval_eq_testBit (p i : Nat) : bitval p i = if p.testBit i then 1 else 0 := by
  unfold bitval
  rw [Nat.and_two_pow]
  have hne : (2 : Nat) ^ i ≠ 0 := Nat.pos_iff_ne_zero.mp (Nat.two_pow_pos i)
  cases h : p.testBit i <;> simp [hne]

theorem and_two_pow_self_iff (p i : Nat) : p &&& 2 ^ i = 2 ^ i ↔ p.testBit i := by
  rw [Nat.and_two_pow]
  cases h : p.testBit i <;> simp
  exact fun hc => absurd hc.symm (Nat.ne_of_gt (Nat.two_pow_pos i))

theorem bitval_le_one (p i : Nat) : bitval p i ≤ 1 := by
  rw [bitval_eq_testBit]
  split <;> omega

theorem bitval_two_pow (t i : Nat) : bitval (2 ^ t) i = if i = t then 1 else 0 := by
  rw [bitval_eq_testBit, Nat.testBit_two_pow]
  rcases eq_or_ne i t with rfl | h
  · simp
  · simp [h, Ne.symm h]

theorem bitval_zero (i : Nat) : bitval 0 i = 0 := by
  simp [bitval]

/-- Reading the reversed bit list of q (least significant bit first in the
unreversed list) as a base-2 string recovers q below 2 to the m. -/
theorem foldl_digits (m : Nat) : ∀ a q : Nat,
    (((List.range m).map fun i => bitval q i).reverse).foldl (fun acc d => acc * 2 + d) a =
      a * 2 ^ m + q % 2 ^ m := by
  induction m with
  | zero => intro a q; simp [Nat.mod_one]
  | succ m ih =>
    intro a q
    rw [List.range_succ, List.map_append, List.reverse_append]
    simp only [List.map_cons, List.map_nil, List.reverse_cons, List.reverse_nil,
      List.nil_append, List.cons_append, List.foldl_cons]
    rw [ih]
    have hd : bitval q m = q / 2 ^ m % 2 := by
      rw [bitval_eq_testBit, Nat.testBit_to_div_mod]
      have h2 : q / 2 ^ m % 2 < 2 := Nat.mod_lt _ (by omega)
      by_cases h : q / 2 ^ m % 2 = 1
      · simp [h]
      · simp [h]
        omega
    have hmod : q % 2 ^ (m + 1) = q % 2 ^ m + 2 ^ m * (q / 2 ^ m % 2) := by
      rw [Nat.pow_succ, Nat.mod_mul]
    rw [hd, hmod, Nat.pow_succ]
    ring

theorem bitsToNat_digits (m q : Nat) (hm : 1 ≤ m) (hq : q < 2 ^ m) :
    bitsToNat (((List.range m).map fun i => bitval q i).reverse) = some q := by
  unfold bitsToNat
  rw [if_neg]
  · rw [foldl_digits]
    simp [Nat.mod_eq_of_lt hq]
  · simp only [List.isEmpty_iff, List.reverse_eq_nil_iff, List.map_eq_nil_iff,
      List.range_eq_nil]
    omega

/-! The syndrome computed by matrix_multiply with the check matrix equals
the per-row sums over the positions whose binary representation has the
row bit set. -/

theorem matrix_multiply_check (m : Nat) (w : List Nat) (hw : w.length = 2 ^ m - 1) :
    matrix_multiply (get_check_matrix m (2 ^ m - 1)) w.reverse =
      (List.range m).map fun i => srow i w := by
  unfold matrix_multiply get_check_matrix
  rw [List.map_map]
  apply List.map_congr_left
  intro i hi
  simp only [Function.comp]
  have hsh : (1 : Nat) <<< i = 2 ^ i := Nat.one_shiftLeft i
  have hrow : ((List.range' 1 (2 ^ m - 1)).map fun bit_position =>
      if bit_position &&& (1 <<< i) ≠ 0 then 1 else 0) =
      (List.range' 1 (2 ^ m - 1)).map fun p => bitval p i := by
    apply List.map_congr_left
    intro p hp
    rw [hsh]
    rfl
  rw [hrow, List.zipWith_map_left,
    zipWith_range' (fun p y => bitval p i * y) (2 ^ m - 1) 1 w.reverse (by simpa using hw)]
  have hvals : ((List.range' 1 (2 ^ m - 1)).map fun p =>
      bitval p i * (w.reverse.getD (p - 1) 0)) =
      (List.range' 1 (2 ^ m - 1)).map fun p => bitval p i * wbit w p := by
    apply List.map_congr_left
    intro p hp
    rw [List.mem_range'_1] at hp
    have hp1 : p - 1 < w.length := by omega
    rw [getD_reverse w (p - 1) hp1]
    have : w.length - 1 - (p - 1) = w.length - p := by omega
    rw [this]
    rfl
  rw [hvals, srow, srowSum, hw]

/-! Composition and traversal lemmas for the two position-walking loops.
Both loops test each position against the running power of two, so over the
positions 1 .. 2 to the m minus 1 they advance block by block: each block
starts at a power of two (a parity slot) and continues with the positions
strictly between that power and the next. -/

theorem posLoop_append (data l1 l2 : List Nat) (pbi dbi : Nat) (acc : List Nat) :
    posLoop data (l1 ++ l2) pbi dbi acc =
      (posLoop data l1 pbi dbi acc).bind fun st => posLoop data l2 st.1 st.2.1 st.2.2 := by
  induction l1 generalizing pbi dbi acc with
  | nil => simp [posLoop]
  | cons p ps ih =>
    rw [List.cons_append]
    by_cases h1 : p = 2 ^ pbi
    · simp only [posLoop, if_pos h1]
      exact ih ..
    · by_cases h2 : dbi ≤ data.length
      · simp only [posLoop, if_neg h1, if_pos h2]
        exact ih ..
      · simp only [posLoop, if_neg h1, if_neg h2]
        rfl

theorem extractLoop_append (w l1 l2 : List Nat) (pbi : Nat) (acc : List Nat) :
    extractLoop w (l1 ++ l2) pbi acc =
      extractLoop w l2 (extractLoop w l1 pbi acc).1 (extractLoop w l1 pbi acc).2 := by
  induction l1 generalizing pbi acc with
  | nil => simp [extractLoop]
  | cons p ps ih =>
    rw [List.cons_append]
    by_cases h1 : p = 2 ^ pbi
    · simp only [extractLoop, if_pos h1]
      exact ih ..
    · simp only [extractLoop, if_neg h1]
      exact ih ..

theorem posLoop_run (data : List Nat) (c : Nat) :
    ∀ (a pbi dbi : Nat) (acc : List Nat),
      (∀ p ∈ List.range' a c, p ≠ 2 ^ pbi) →
      dbi + c ≤ data.length + 1 →
      posLoop data (List.range' a c) pbi dbi acc =
        some (pbi, dbi + c,
          acc ++ (List.range' dbi c).map fun i => data.getD (data.length - i) 0) := by
  induction c with
  | zero =>
    intro a pbi dbi acc hp hd
    simp [posLoop]
  | succ c ih =>
    intro a pbi dbi acc hp hd
    rw [List.range'_succ]
    have ha : a ∈ List.range' a (c + 1) := by
      rw [List.mem_range'_1]
      omega
    simp only [posLoop, if_neg (hp a ha), if_pos (show dbi ≤ data.length by omega)]
    rw [ih (a + 1) pbi (dbi + 1) _
      (fun p hp2 => hp p (by rw [List.mem_range'_1] at hp2 ⊢; omega)) (by omega)]
    rw [List.range'_succ, List.map_cons]
    have hc : dbi + 1 + c = dbi + (c + 1) := by omega
    rw [hc, List.append_assoc, List.singleton_append]

theorem extractLoop_run (w : List Nat) (c : Nat) :
    ∀ (a pbi : Nat) (acc : List Nat),
      (∀ p ∈ List.range' a c, p ≠ 2 ^ pbi) →
      extractLoop w (List.range' a c) pbi acc =
        (pbi, acc ++ (List.range' a c).map fun p => w.getD (w.length - p) 0) := by
  induction c with
  | zero =>
    intro a pbi acc hp
    simp [extractLoop]
  | succ c ih =>
    intro a pbi acc hp
    rw [List.range'_succ]
    have ha : a ∈ List.range' a (c + 1) := by
      rw [List.mem_range'_1]
      omega
    simp only [extractLoop, if_neg (hp a ha)]
    rw [ih (a + 1) pbi _
      (fun p hp2 => hp p (by rw [List.mem_range'_1] at hp2 ⊢; omega))]
    simp [List.append_assoc]

theorem posedBits_succ (m : Nat) (data : List Nat) :
    posedBits (m + 1) data =
      posedBits m data ++
        0 :: (List.range' (2 ^ m - m) (2 ^ m - 1)).map fun i =>
          data.getD (data.length - i) 0 := by
  unfold posedBits
  rw [List.range_succ, List.map_append, List.flatten_append]
  simp

theorem range'_two_pow_split (m : Nat) :
    List.range' 1 (2 ^ (m + 1) - 1) =
      List.range' 1 (2 ^ m - 1) ++ List.range' (2 ^ m) (2 ^ m) := by
  have hm : 0 < 2 ^ m := Nat.two_pow_pos m
  have hpow : 2 ^ (m + 1) = 2 * 2 ^ m := by rw [Nat.pow_succ]; ring
  have h := List.range'_append_1 1 (2 ^ m - 1) (2 ^ m)
  rw [show 1 + (2 ^ m - 1) = 2 ^ m by omega] at h
  rw [show 2 ^ (m + 1) - 1 = 2 ^ m + (2 ^ m - 1) by omega, ← h]

theorem range'_block_head (m : Nat) :
    List.range' (2 ^ m) (2 ^ m) = 2 ^ m :: List.range' (2 ^ m + 1) (2 ^ m - 1) := by
  have hm : 0 < 2 ^ m := Nat.two_pow_pos m
  rw [show (2 : Nat) ^ m = (2 ^ m - 1) + 1 by omega]
  rw [List.range'_succ]
  rw [show (2 : Nat) ^ m - 1 + 1 = 2 ^ m by omega]

theorem posLoop_blocks (data : List Nat) (m : Nat) (hd : 2 ^ m - 1 - m ≤ data.length) :
    posLoop data (List.range' 1 (2 ^ m - 1)) 0 1 [] =
      some (m, 2 ^ m - m, posedBits m data) := by
  induction m with
  | zero => simp [posLoop, posedBits]
  | succ m ih =>
    have hm : m < 2 ^ m := Nat.lt_two_pow m
    have hpow : 2 ^ (m + 1) = 2 * 2 ^ m := by rw [Nat.pow_succ]; ring
    rw [range'_two_pow_split, posLoop_append, ih (by omega)]
    rw [Option.some_bind]
    rw [range'_block_head]
    simp only [posLoop, if_pos rfl]
    rw [posLoop_run data (2 ^ m - 1) (2 ^ m + 1) (m + 1) (2 ^ m - m) _
      (fun p hp => by rw [List.mem_range'_1] at hp; omega) (by omega)]
    rw [posedBits_succ]
    have hc : 2 ^ m - m + (2 ^ m - 1) = 2 ^ (m + 1) - (m + 1) := by omega
    rw [hc, List.append_assoc, List.singleton_append]
    simp

theorem extractLoop_blocks (w : List Nat) (m : Nat) :
    extractLoop w (List.range' 1 (2 ^ m - 1)) 0 [] =
      (m, ((List.range m).map fun j =>
        (List.range' (2 ^ j + 1) (2 ^ j - 1)).map fun p =>
          w.getD (w.length - p) 0).flatten) := by
  induction m with
  | zero => simp [extractLoop]
  | succ m ih =>
    have hm : m < 2 ^ m := Nat.lt_two_pow m
    have hpow : 2 ^ (m + 1) = 2 * 2 ^ m := by rw [Nat.pow_succ]; ring
    rw [range'_two_pow_split, extractLoop_append, ih]
    rw [range'_block_head]
    simp only [extractLoop, if_pos rfl]
    rw [extractLoop_run w (2 ^ m - 1) (2 ^ m + 1) (m + 1) _
      (fun p hp => by rw [List.mem_range'_1] at hp; omega)]
    rw [List.range_succ, List.map_append, List.flatten_append]
    simp

theorem extract_data_bits_blocks (w : List Nat) (m : Nat) (hw : w.length = 2 ^ m - 1) :
    extract_data_bits w =
      (((List.range m).map fun j =>
        (List.range' (2 ^ j + 1) (2 ^ j - 1)).map fun p =>
          w.getD (w.length - p) 0).flatten).reverse := by
  unfold extract_data_bits
  rw [show List.range' 1 w.length = List.range' 1 (2 ^ m - 1) from by rw [hw],
    extractLoop_blocks]

theorem pos_redundant_bits_eq (m : Nat) (data : List Nat)
    (hlen : data.length = 2 ^ m - 1 - m) :
    pos_redundant_bits m data = some (posedBits m data).reverse := by
  unfold pos_redundant_bits
  have hm : m < 2 ^ m := Nat.lt_two_pow m
  rw [show data.length + m = 2 ^ m - 1 by omega, posLoop_blocks data m (by omega)]
  rfl

/-! Shape and value lemmas for the positioned word. -/

theorem posedBits_length (m : Nat) (data : List Nat) :
    (posedBits m data).length = 2 ^ m - 1 := by
  induction m with
  | zero => simp [posedBits]
  | succ m ih =>
    have hm : 0 < 2 ^ m := Nat.two_pow_pos m
    have hpow : 2 ^ (m + 1) = 2 * 2 ^ m := by rw [Nat.pow_succ]; ring
    rw [posedBits_succ, List.length_append, ih]
    simp
    omega

theorem posedBits_le_one (m : Nat) (data : List Nat) (hdata : ∀ b ∈ data, b ≤ 1) :
    ∀ x ∈ posedBits m data, x ≤ 1 := by
  intro x hx
  unfold posedBits at hx
  rw [List.mem_flatten] at hx
  obtain ⟨l, hl, hxl⟩ := hx
  rw [List.mem_map] at hl
  obtain ⟨j, hj, rfl⟩ := hl
  rcases List.mem_cons.mp hxl with rfl | hx2
  · omega
  · rw [List.mem_map] at hx2
    obtain ⟨i, hi, rfl⟩ := hx2
    exact getD_le_of_forall_le data _ hdata

theorem posedBits_getD (m : Nat) (data : List Nat) :
    ∀ j t : Nat, j < m → t < 2 ^ j →
      (posedBits m data).getD (2 ^ j - 1 + t) 0 =
        if t = 0 then 0 else data.getD (data.length - (2 ^ j - j + t - 1)) 0 := by
  induction m with
  | zero => omega
  | succ m ih =>
    intro j t hj ht
    rw [posedBits_succ]
    rcases Nat.lt_or_ge j m with hjm | hjm
    · have hj0 : 0 < 2 ^ j := Nat.two_pow_pos j
      have h1 : 2 ^ (j + 1) ≤ 2 ^ m := Nat.pow_le_pow_right (by omega) (by omega)
      have h2 : 2 ^ (j + 1) = 2 * 2 ^ j := by rw [Nat.pow_succ]; ring
      have hlt : 2 ^ j - 1 + t < (posedBits m data).length := by
        rw [posedBits_length]
        omega
      rw [List.getD_append _ _ _ _ hlt]
      exact ih j t hjm ht
    · have hjm2 : j = m := by omega
      subst hjm2
      have hm0 : 0 < 2 ^ j := Nat.two_pow_pos j
      rw [List.getD_append_right _ _ _ _ (by rw [posedBits_length]; omega)]
      rw [posedBits_length]
      rw [show 2 ^ j - 1 + t - (2 ^ j - 1) = t by omega]
      cases t with
      | zero => simp
      | succ t2 =>
        rw [List.getD_cons_succ,
          getD_map_range' _ (2 ^ j - j) (2 ^ j - 1) t2 (by omega),
          if_neg (Nat.succ_ne_zero t2)]
        rw [show 2 ^ j - j + (t2 + 1) - 1 = 2 ^ j - j + t2 from by omega]

theorem wbit_reverse (u : List Nat) (p : Nat) (hp : 1 ≤ p) (hpl : p ≤ u.length) :
    wbit u.reverse p = u.getD (p - 1) 0 := by
  unfold wbit
  rw [List.length_reverse, getD_reverse u (u.length - p) (by omega)]
  rw [show u.length - 1 - (u.length - p) = p - 1 from by omega]

theorem posed_wbit_pow (m : Nat) (data : List Nat) (j : Nat) (hj : j < m) :
    wbit (posedBits m data).reverse (2 ^ j) = 0 := by
  have hlen := posedBits_length m data
  have hj0 : 0 < 2 ^ j := Nat.two_pow_pos j
  have h1 : 2 ^ (j + 1) ≤ 2 ^ m := Nat.pow_le_pow_right (by omega) (by omega)
  have h2 : 2 ^ (j + 1) = 2 * 2 ^ j := by rw [Nat.pow_succ]; ring
  rw [wbit_reverse _ _ (by omega) (by omega)]
  have := posedBits_getD m data j 0 hj (by omega)
  simpa using this

theorem posed_wbit_data (m : Nat) (data : List Nat) (j t : Nat) (hj : j < m)
    (ht1 : 1 ≤ t) (ht2 : t < 2 ^ j) :
    wbit (posedBits m data).reverse (2 ^ j + t) =
      data.getD (data.length - (2 ^ j - j + t - 1)) 0 := by
  have hlen := posedBits_length m data
  have hj0 : 0 < 2 ^ j := Nat.two_pow_pos j
  have h1 : 2 ^ (j + 1) ≤ 2 ^ m := Nat.pow_le_pow_right (by omega) (by omega)
  have h2 : 2 ^ (j + 1) = 2 * 2 ^ j := by rw [Nat.pow_succ]; ring
  rw [wbit_reverse _ _ (by omega) (by omega)]
  rw [show 2 ^ j + t - 1 = 2 ^ j - 1 + t from by omega]
  rw [posedBits_getD m data j t hj ht2, if_neg (by omega)]

/-! The inner parity fold equals the syndrome-row sum mod 2, and setting a
single position from the end shifts the row sums in a controlled way. -/

theorem parityValue_eq (w : List Nat) (pbi : Nat) (hle : ∀ x ∈ w, x ≤ 1) :
    parityValue w.length w pbi = srowSum pbi w % 2 := by
  unfold parityValue srowSum
  have hstep : (fun (parity_value bit_position : Nat) =>
      if bit_position &&& 2 ^ pbi = 2 ^ pbi then
        parity_value ^^^ w.getD (w.length - bit_position) 0
      else parity_value) =
      fun acc p => acc ^^^ (bitval p pbi * wbit w p) := by
    funext acc p
    by_cases h : p &&& 2 ^ pbi = 2 ^ pbi
    · rw [if_pos h]
      have hb : bitval p pbi = 1 := by
        rw [bitval_eq_testBit, if_pos ((and_two_pow_self_iff p pbi).mp h)]
      rw [hb, Nat.one_mul]
      rfl
    · rw [if_neg h]
      have hb : bitval p pbi = 0 := by
        rw [bitval_eq_testBit, if_neg]
        intro hc
        exact h ((and_two_pow_self_iff p pbi).mpr hc)
      rw [hb, Nat.zero_mul, Nat.xor_zero]
  rw [hstep,
    ← List.foldl_map (fun p => bitval p pbi * wbit w p) (fun u v => u ^^^ v)]
  rw [foldl_xor_eq_sum_mod _ 0 (by omega)]
  · rw [Nat.zero_add]
  · intro x hx
    rw [List.mem_map] at hx
    obtain ⟨p, hp, rfl⟩ := hx
    have h1 := bitval_le_one p pbi
    have h2 : wbit w p ≤ 1 := getD_le_of_forall_le w _ hle
    calc bitval p pbi * wbit w p ≤ 1 * 1 := Nat.mul_le_mul h1 h2
    _ = 1 := by omega

theorem srowSum_set (w : List Nat) (q v i : Nat) (hq1 : 1 ≤ q) (hq2 : q ≤ w.length) :
    srowSum i (w.set (w.length - q) v) + bitval q i * wbit w q =
      srowSum i w + bitval q i * v := by
  have hlen : (w.set (w.length - q) v).length = w.length := List.length_set ..
  unfold srowSum
  rw [hlen]
  have hq0 : 0 < w.length := by omega
  have hmem : q ∈ List.range' 1 w.length := by
    rw [List.mem_range'_1]
    omega
  have happ := sum_map_replace (List.range' 1 w.length)
    (fun p => bitval p i * wbit w p)
    (fun p => bitval p i * wbit (w.set (w.length - q) v) p)
    q (List.nodup_range' 1 w.length) hmem ?hoff
  case hoff =>
    intro p hp hpq
    rw [List.mem_range'_1] at hp
    show bitval p i * wbit (w.set (w.length - q) v) p = bitval p i * wbit w p
    unfold wbit
    rw [hlen, getD_set_ne w v (by omega)]
  have hq : wbit (w.set (w.length - q) v) q = v := by
    unfold wbit
    rw [hlen, getD_set_eq w (w.length - q) v (by omega)]
  simp only at happ
  rw [hq] at happ
  omega

/-- The whole calc_parity_bits pass, as an invariant over the remaining
parity indices: it succeeds, keeps the length and the 0/1 entries, fixes
every position that is not one of the remaining powers of two, zeroes
every processed syndrome row, and leaves the earlier rows alone. -/
theorem calcLoop_invariant (L m : Nat) (hL : L = 2 ^ m - 1) :
    ∀ (c t : Nat) (w : List Nat), t + c ≤ m → w.length = L →
      (∀ x ∈ w, x ≤ 1) →
      (∀ i, t ≤ i → i < t + c → wbit w (2 ^ i) = 0) →
      ∃ w2, calcLoop L w (List.range' t c) = some w2 ∧
        w2.length = L ∧ (∀ x ∈ w2, x ≤ 1) ∧
        (∀ p, 1 ≤ p → p ≤ L → (∀ i, t ≤ i → i < t + c → p ≠ 2 ^ i) →
          wbit w2 p = wbit w p) ∧
        (∀ i, t ≤ i → i < t + c → srow i w2 = 0) ∧
        (∀ i, i < t → srow i w2 = srow i w) := by
  intro c
  induction c with
  | zero =>
    intro t w hc hwl hwle hwpow
    refine ⟨w, by simp [calcLoop], hwl, hwle, fun p _ _ _ => rfl, by omega, fun i _ => rfl⟩
  | succ c ih =>
    intro t w hc hwl hwle hwpow
    have htm : t < m := by omega
    have hm0 : 0 < 2 ^ m := Nat.two_pow_pos m
    have ht2 : 2 ^ t < 2 ^ m := Nat.pow_lt_pow_right (by omega) htm
    have ht0 : 0 < 2 ^ t := Nat.two_pow_pos t
    have hguard : 2 ^ t ≤ L := by omega
    have hv : parityValue L w t = srowSum t w % 2 := by
      rw [← hwl]
      exact parityValue_eq w t hwle
    have hset := srowSum_set w (2 ^ t) (parityValue L w t) t (by omega) (by omega)
    rw [hwl] at hset
    have hw0 : wbit w (2 ^ t) = 0 := hwpow t (by omega) (by omega)
    have hbv : bitval (2 ^ t) t = 1 := by
      rw [bitval_two_pow, if_pos rfl]
    have hw1len : (w.set (L - 2 ^ t) (parityValue L w t)).length = L := by
      rw [List.length_set, hwl]
    have hw1le : ∀ x ∈ w.set (L - 2 ^ t) (parityValue L w t), x ≤ 1 := by
      intro x hx
      rcases List.mem_or_eq_of_mem_set hx with hx2 | rfl
      · exact hwle x hx2
      · rw [hv]
        omega
    have hw1bit : ∀ p, 1 ≤ p → p ≤ L → p ≠ 2 ^ t →
        wbit (w.set (L - 2 ^ t) (parityValue L w t)) p = wbit w p := by
      intro p hp1 hp2 hp3
      unfold wbit
      rw [hw1len, hwl, getD_set_ne w _ (by omega)]
    have hw1q : wbit (w.set (L - 2 ^ t) (parityValue L w t)) (2 ^ t) =
        parityValue L w t := by
      unfold wbit
      rw [hw1len, getD_set_eq w (L - 2 ^ t) (parityValue L w t) (by omega)]
    have hsrow_t : srow t (w.set (L - 2 ^ t) (parityValue L w t)) = 0 := by
      unfold srow
      rw [hbv, hw0] at hset
      omega
    have hsrow_ne : ∀ i, i ≠ t →
        srow i (w.set (L - 2 ^ t) (parityValue L w t)) = srow i w := by
      intro i hi
      have hs := srowSum_set w (2 ^ t) (parityValue L w t) i (by omega) (by omega)
      rw [hwl] at hs
      have hbv0 : bitval (2 ^ t) i = 0 := by
        rw [bitval_two_pow, if_neg hi]
      rw [hbv0] at hs
      unfold srow
      omega
    have hw1pow : ∀ i, t + 1 ≤ i → i < t + 1 + c →
        wbit (w.set (L - 2 ^ t) (parityValue L w t)) (2 ^ i) = 0 := by
      intro i hi1 hi2
      have hii : 2 ^ t < 2 ^ i := Nat.pow_lt_pow_right (by omega) (by omega)
      have hiL : 2 ^ i < 2 ^ m := Nat.pow_lt_pow_right (by omega) (by omega)
      rw [hw1bit (2 ^ i) (by omega) (by omega) (by omega)]
      exact hwpow i (by omega) (by omega)
    obtain ⟨w2, hrun, hl2, hle2, hbit2, hz2, hpres2⟩ :=
      ih (t + 1) (w.set (L - 2 ^ t) (parityValue L w t)) (by omega) hw1len hw1le hw1pow
    refine ⟨w2, ?_, hl2, hle2, ?_, ?_, ?_⟩
    · rw [List.range'_succ]
      simp only [calcLoop, if_pos hguard]
      exact hrun
    · intro p hp1 hp2 hp3
      rw [hbit2 p hp1 hp2 (fun i hi1 hi2 => hp3 i (by omega) (by omega)),
        hw1bit p hp1 hp2 (hp3 t (by omega) (by omega))]
    · intro i hi1 hi2
      by_cases hit : i = t
      · subst hit
        rw [hpres2 i (by omega), hsrow_t]
      · exact hz2 i (by omega) (by omega)
    · intro i hi
      rw [hpres2 i (by omega), hsrow_ne i (by omega)]

theorem calc_parity_bits_spec (m : Nat) (w : List Nat) (hwl : w.length = 2 ^ m - 1)
    (hwle : ∀ x ∈ w, x ≤ 1) (hwpow : ∀ i, i < m → wbit w (2 ^ i) = 0) :
    ∃ w2, calc_parity_bits m w = some w2 ∧ w2.length = 2 ^ m - 1 ∧
      (∀ x ∈ w2, x ≤ 1) ∧
      (∀ p, 1 ≤ p → p ≤ 2 ^ m - 1 → (∀ i, i < m → p ≠ 2 ^ i) →
        wbit w2 p = wbit w p) ∧
      (∀ i, i < m → srow i w2 = 0) := by
  unfold calc_parity_bits
  rw [hwl, List.range_eq_range']
  obtain ⟨w2, h1, h2, h3, h4, h5, _⟩ :=
    calcLoop_invariant (2 ^ m - 1) m rfl m 0 w (by omega) hwl hwle
      (fun i hi1 hi2 => hwpow i (by omega))
  exact ⟨w2, h1, h2, h3,
    fun p hp1 hp2 hp3 => h4 p hp1 hp2 (fun i hi1 hi2 => hp3 i (by omega)),
    fun i hi => h5 i (by omega) (by omega)⟩

/-- Concatenating the per-block data-index ranges gives the full range of
data indices. -/
theorem flatten_blocks (f : Nat → Nat) (m : Nat) :
    ((List.range m).map fun j => (List.range' (2 ^ j - j) (2 ^ j - 1)).map f).flatten =
      (List.range' 1 (2 ^ m - 1 - m)).map f := by
  induction m with
  | zero => simp
  | succ m ih =>
    have hm : m < 2 ^ m := Nat.lt_two_pow m
    have hpow : 2 ^ (m + 1) = 2 * 2 ^ m := by rw [Nat.pow_succ]; ring
    rw [List.range_succ, List.map_append, List.flatten_append, ih]
    have happ := List.range'_append_1 1 (2 ^ m - 1 - m) (2 ^ m - 1)
    rw [show 1 + (2 ^ m - 1 - m) = 2 ^ m - m from by omega] at happ
    rw [show 2 ^ (m + 1) - 1 - (m + 1) = (2 ^ m - 1) + (2 ^ m - 1 - m) from by omega,
      ← happ, List.map_append]
    simp

/-- The master encode lemma: on a data word of the correct length over 0/1,
encode succeeds, the codeword has the codeword length, is over 0/1, has all
syndrome rows zero, and extract_data_bits recovers the data word. -/
theorem encode_spec (m : Nat) (data : List Nat) (hlen : data.length = 2 ^ m - 1 - m)
    (hbits : ∀ b ∈ data, b ≤ 1) :
    ∃ w, encode m data = some w ∧ w.length = 2 ^ m - 1 ∧ (∀ x ∈ w, x ≤ 1) ∧
      (∀ i, i < m → srow i w = 0) ∧ extract_data_bits w = data := by
  unfold encode
  rw [pos_redundant_bits_eq m data hlen]
  have wslen : (posedBits m data).reverse.length = 2 ^ m - 1 := by
    rw [List.length_reverse, posedBits_length]
  have wsle : ∀ x ∈ (posedBits m data).reverse, x ≤ 1 := by
    intro x hx
    exact posedBits_le_one m data hbits x (List.mem_reverse.mp hx)
  have wspow : ∀ i, i < m → wbit (posedBits m data).reverse (2 ^ i) = 0 :=
    fun i hi => posed_wbit_pow m data i hi
  obtain ⟨w2, hw2, hl2, hle2, hbit2, hz2⟩ :=
    calc_parity_bits_spec m (posedBits m data).reverse wslen wsle wspow
  rw [Option.some_bind, hw2]
  refine ⟨w2, rfl, hl2, hle2, hz2, ?_⟩
  rw [extract_data_bits_blocks w2 m hl2]
  have hmap : ∀ j ∈ List.range m,
      ((List.range' (2 ^ j + 1) (2 ^ j - 1)).map fun p => w2.getD (w2.length - p) 0) =
        (List.range' (2 ^ j - j) (2 ^ j - 1)).map fun i =>
          data.getD (data.length - i) 0 := by
    intro j hj
    rw [List.mem_range] at hj
    have hj0 : 0 < 2 ^ j := Nat.two_pow_pos j
    have hjlt : j < 2 ^ j := Nat.lt_two_pow j
    have hjm : 2 ^ (j + 1) ≤ 2 ^ m := Nat.pow_le_pow_right (by omega) (by omega)
    have hjp : 2 ^ (j + 1) = 2 * 2 ^ j := by rw [Nat.pow_succ]; ring
    have hm0 : 0 < 2 ^ m := Nat.two_pow_pos m
    have h1 : ((List.range' (2 ^ j + 1) (2 ^ j - 1)).map fun p =>
        w2.getD (w2.length - p) 0) =
        (List.range' (2 ^ j + 1) (2 ^ j - 1)).map fun p =>
          data.getD (data.length - (p - j - 1)) 0 := by
      apply List.map_congr_left
      intro p hp
      rw [List.mem_range'_1] at hp
      have hnp : ∀ i, i < m → p ≠ 2 ^ i := by
        intro i him heq
        rcases Nat.lt_or_ge i (j + 1) with hij | hij
        · have : 2 ^ i ≤ 2 ^ j := Nat.pow_le_pow_right (by omega) (by omega)
          omega
        · have : 2 ^ (j + 1) ≤ 2 ^ i := Nat.pow_le_pow_right (by omega) hij
          omega
      have hstep1 : wbit w2 p = wbit (posedBits m data).reverse p :=
        hbit2 p (by omega) (by omega) hnp
      have hstep2 : wbit (posedBits m data).reverse (2 ^ j + (p - 2 ^ j)) =
          data.getD (data.length - (2 ^ j - j + (p - 2 ^ j) - 1)) 0 :=
        posed_wbit_data m data j (p - 2 ^ j) hj (by omega) (by omega)
      rw [show 2 ^ j + (p - 2 ^ j) = p from by omega] at hstep2
      show wbit w2 p = data.getD (data.length - (p - j - 1)) 0
      rw [hstep1, hstep2,
        show 2 ^ j - j + (p - 2 ^ j) - 1 = p - j - 1 from by omega]
    rw [h1]
    have h2 := List.map_add_range' (j + 1) (2 ^ j - j) (2 ^ j - 1) 1
    rw [show j + 1 + (2 ^ j - j) = 2 ^ j + 1 from by omega] at h2
    rw [← h2, List.map_map]
    apply List.map_congr_left
    intro i hi
    rw [List.mem_range'_1] at hi
    show data.getD (data.length - (j + 1 + i - j - 1)) 0 = data.getD (data.length - i) 0
    rw [show j + 1 + i - j - 1 = i from by omega]
  rw [List.map_congr_left hmap, flatten_blocks, ← hlen, map_range'_getD_rev,
    List.reverse_reverse]

/-! Decode-layer lemmas: the detected position is the syndrome read as a
binary integer, and flipping a bit moves the syndrome by the binary
representation of the flipped position. -/

theorem detect_error_syndrome (m : Nat) (w : List Nat) (hm : 1 ≤ m)
    (hw : w.length = 2 ^ m - 1) (q : Nat) (hq : q < 2 ^ m)
    (hrows : ∀ i, i < m → srow i w = bitval q i) :
    detect_error (get_check_matrix m (2 ^ m - 1)) w = some q := by
  unfold detect_error
  rw [matrix_multiply_check m w hw]
  have hmap : (List.range m).map (fun i => srow i w) =
      (List.range m).map fun i => bitval q i := by
    apply List.map_congr_left
    intro i hi
    exact hrows i (List.mem_range.mp hi)
  rw [hmap]
  exact bitsToNat_digits m q hm hq

theorem srow_flip (w : List Nat) (q i : Nat) (hq1 : 1 ≤ q) (hq2 : q ≤ w.length)
    (hle : ∀ x ∈ w, x ≤ 1) :
    srow i (errAt w (w.length - q)) = (srow i w + bitval q i) % 2 := by
  have hs := srowSum_set w q (w.getD (w.length - q) 0 ^^^ 1) i hq1 hq2
  have hwq : wbit w q = w.getD (w.length - q) 0 := rfl
  have hb : w.getD (w.length - q) 0 ≤ 1 := getD_le_of_forall_le w _ hle
  have hbv : bitval q i ≤ 1 := bitval_le_one q i
  unfold srow errAt
  rcases (by omega : w.getD (w.length - q) 0 = 0 ∨ w.getD (w.length - q) 0 = 1)
    with h0 | h0
  · rw [h0] at hwq
    rw [h0] at hs ⊢
    rw [hwq] at hs
    rw [show (0 : Nat) ^^^ 1 = 1 from rfl] at hs ⊢
    omega
  · rw [h0] at hwq
    rw [h0] at hs ⊢
    rw [hwq] at hs
    rw [show (1 : Nat) ^^^ 1 = 0 from rfl] at hs ⊢
    omega

theorem set_getD_self (l : List Nat) : ∀ i, i < l.length → l.set i (l.getD i 0) = l := by
  induction l with
  | nil =>
    intro i hi
    simp at hi
  | cons x xs ih =>
    intro i hi
    cases i with
    | zero => simp
    | succ i2 =>
      rw [List.getD_cons_succ]
      have : (x :: xs).set (i2 + 1) (xs.getD i2 0) = x :: xs.set i2 (xs.getD i2 0) := rfl
      rw [this, ih i2 (by simpa using hi)]

/-- A clean codeword (all syndrome rows zero) decodes to itself with error
position 0 and the error flag false. -/
theorem decode_clean (m : Nat) (w : List Nat) (hm : 1 ≤ m) (hw : w.length = 2 ^ m - 1)
    (hz : ∀ i, i < m → srow i w = 0) :
    decode (get_check_matrix m (2 ^ m - 1)) w =
      some (w, extract_data_bits w, 0, false) ∧
    detect_error (get_check_matrix m (2 ^ m - 1)) w = some 0 := by
  have hd := detect_error_syndrome m w hm hw 0 (Nat.two_pow_pos m)
    (fun i hi => by rw [hz i hi, bitval_zero])
  refine ⟨?_, hd⟩
  unfold decode
  rw [hd, Option.some_bind]
  simp

/-- Flipping one bit of a clean codeword decodes back to the clean codeword
with the 0-indexed flipped position reported and the error flag true. -/
theorem decode_flip (m : Nat) (w : List Nat) (p : Nat) (hm : 1 ≤ m)
    (hw : w.length = 2 ^ m - 1) (hle : ∀ x ∈ w, x ≤ 1)
    (hz : ∀ i, i < m → srow i w = 0) (hp : p < w.length) :
    decode (get_check_matrix m (2 ^ m - 1)) (errAt w p) =
      some (w, extract_data_bits w, p, true) ∧
    detect_error (get_check_matrix m (2 ^ m - 1)) (errAt w p) =
      some (w.length - p) := by
  have hm0 : 0 < 2 ^ m := Nat.two_pow_pos m
  have hq1 : 1 ≤ w.length - p := by omega
  have hq2 : w.length - p ≤ w.length := by omega
  have hqlt : w.length - p < 2 ^ m := by omega
  have hpq : w.length - (w.length - p) = p := by omega
  have hrows : ∀ i, i < m → srow i (errAt w p) = bitval (w.length - p) i := by
    intro i hi
    have hflip := srow_flip w (w.length - p) i hq1 hq2 hle
    rw [hpq] at hflip
    rw [hflip, hz i hi, Nat.zero_add,
      Nat.mod_eq_of_lt (by have := bitval_le_one (w.length - p) i; omega)]
  have hlen2 : (errAt w p).length = 2 ^ m - 1 := by
    unfold errAt
    rw [List.length_set, hw]
  have hd := detect_error_syndrome m (errAt w p) hm hlen2 (w.length - p) hqlt hrows
  refine ⟨?_, hd⟩
  unfold decode
  rw [hd, Option.some_bind]
  rw [if_pos (by omega : w.length - p ≠ 0),
    if_pos (show w.length - p ≤ (errAt w p).length from by omega)]
  have hc : (errAt w p).length - (w.length - p) = p := by
    rw [hlen2]
    omega
  rw [hc]
  have hback : (errAt w p).set p (if (errAt w p).getD p 0 = 0 then 1 else 0) = w := by
    unfold errAt
    have hgd : (w.set p (w.getD p 0 ^^^ 1)).getD p 0 = w.getD p 0 ^^^ 1 :=
      getD_set_eq w p _ hp
    rw [hgd, List.set_set]
    have hb : w.getD p 0 ≤ 1 := getD_le_of_forall_le w _ hle
    rcases (by omega : w.getD p 0 = 0 ∨ w.getD p 0 = 1) with h0 | h0
    · rw [h0, show (0 : Nat) ^^^ 1 = 1 from rfl, if_neg (by omega), ← h0]
      exact set_getD_self w p hp
    · rw [h0, show (1 : Nat) ^^^ 1 = 0 from rfl, if_pos rfl, ← h0]
      exact set_getD_self w p hp
  simp only [hback]

/-! Support lemmas for the constructor and the error-handling claims. -/

theorem HammingCode.init_eq (m : Nat) (hc : HammingCode)
    (h : HammingCode.init m = some hc) :
    2 ≤ m ∧ hc.parity_bits = m ∧ hc.codeword_length = 2 ^ m - 1 ∧
      hc.data_length = 2 ^ m - 1 - m ∧
      hc.check_matrix = get_check_matrix m (2 ^ m - 1) ∧
      hc.generator_matrix = get_generator_matrix m (2 ^ m - 1 - m) (2 ^ m - 1) := by
  by_cases hm : m < 2
  · rw [HammingCode.init, if_pos hm] at h
    simp at h
  · rw [HammingCode.init, if_neg hm] at h
    simp only [Option.some_inj] at h
    subst h
    exact ⟨by omega, rfl, rfl, rfl, rfl, rfl⟩

theorem posLoop_length (data : List Nat) :
    ∀ (ps : List Nat) (pbi dbi : Nat) (acc : List Nat) (st : Nat × Nat × List Nat),
      posLoop data ps pbi dbi acc = some st →
      st.2.2.length = acc.length + ps.length := by
  intro ps
  induction ps with
  | nil =>
    intro pbi dbi acc st h
    simp only [posLoop, Option.some_inj] at h
    subst h
    simp
  | cons p ps ih =>
    intro pbi dbi acc st h
    simp only [posLoop] at h
    split_ifs at h with h1 h2
    · have := ih _ _ _ _ h
      simp only [List.length_append, List.length_cons, List.length_nil] at this
      simp only [List.length_cons]
      omega
    · have := ih _ _ _ _ h
      simp only [List.length_append, List.length_cons, List.length_nil] at this
      simp only [List.length_cons]
      omega

theorem calcLoop_length (L : Nat) :
    ∀ (idx arr w2 : List Nat), calcLoop L arr idx = some w2 →
      w2.length = arr.length := by
  intro idx
  induction idx with
  | nil =>
    intro arr w2 h
    simp only [calcLoop, Option.some_inj] at h
    subst h
    rfl
  | cons i rest ih =>
    intro arr w2 h
    simp only [calcLoop] at h
    split_ifs at h
    have := ih _ _ h
    rw [this, List.length_set]

theorem encode_length (m : Nat) (data w : List Nat) (h : encode m data = some w) :
    w.length = data.length + m := by
  unfold encode pos_redundant_bits at h
  cases hpos : posLoop data (List.range' 1 (data.length + m)) 0 1 [] with
  | none =>
    rw [hpos] at h
    simp at h
  | some st =>
    rw [hpos] at h
    simp only [Option.map_some', Option.some_bind] at h
    unfold calc_parity_bits at h
    have hl := calcLoop_length _ _ _ _ h
    have hp := posLoop_length data _ _ _ _ _ hpos
    simp only [List.length_nil, List.length_range'] at hp
    rw [hl, List.length_reverse, hp]
    omega

theorem zipWith_mul_sum_min (a : List Nat) :
    ∀ b : List Nat, (List.zipWith (fun x y => x * y) a b).sum =
      ((List.range (min a.length b.length)).map fun j =>
        a.getD j 0 * b.getD j 0).sum := by
  induction a with
  | nil => intro b; simp
  | cons x xs ih =>
    intro b
    cases b with
    | nil => simp
    | cons y ys =>
      rw [List.zipWith_cons_cons, List.sum_cons, ih ys]
      rw [show min (x :: xs).length (y :: ys).length = min xs.length ys.length + 1
        from by simp [Nat.succ_min_succ]]
      rw [List.range_succ_eq_map, List.map_cons, List.sum_cons, List.map_map]
      have hhead : (x :: xs).getD 0 0 * (y :: ys).getD 0 0 = x * y := by simp
      have htail : ((List.range (min xs.length ys.length)).map
          ((fun j => (x :: xs).getD j 0 * (y :: ys).getD j 0) ∘ Nat.succ)) =
          (List.range (min xs.length ys.length)).map fun j =>
            xs.getD j 0 * ys.getD j 0 := by
        apply List.map_congr_left
        intro j hj
        simp [Function.comp]
      rw [hhead, htail]

theorem matrix_multiply_getD (M : List (List Nat)) (v : List Nat) (i : Nat)
    (hi : i < M.length) :
    (matrix_multiply M v).getD i 0 =
      (List.zipWith (fun x y => x * y) (M.getD i []) v).sum % 2 := by
  unfold matrix_multiply
  rw [List.getD_eq_getElem _ _ (by simpa using hi), List.getElem_map,
    List.getD_eq_getElem _ _ hi]

/-! Claim theorems. -/

/-- Claim C1: for every constructed HammingCode instance, every data word of
exactly data_length bits over 0/1, and every 0-indexed position p below
codeword_length, flipping bit p of the encoded word and decoding yields the
error flag true, the reported error position p, the corrected codeword
equal to the original encoded word, and the extracted data word equal to
the data word. -/
theorem single_error_correction (m : Nat) (hc : HammingCode)
    (hinit : HammingCode.init m = some hc) (data : List Nat)
    (hlen : data.length = hc.data_length) (hbits : ∀ b ∈ data, b ≤ 1)
    (p : Nat) (hp : p < hc.codeword_length) :
    ∃ w, encode hc.parity_bits data = some w ∧
      decode hc.check_matrix (errAt w p) = some (w, data, p, true) := by
  obtain ⟨h2m, hpb, hcl, hdl, hcm, hgm⟩ := HammingCode.init_eq m hc hinit
  rw [hdl] at hlen
  rw [hcl] at hp
  rw [hpb, hcm]
  obtain ⟨w, hw, hwl, hwle, hz, hex⟩ := encode_spec m data hlen hbits
  refine ⟨w, hw, ?_⟩
  have hd := (decode_flip m w p (by omega) hwl hwle hz (by rw [hwl]; exact hp)).1
  rw [hex] at hd
  exact hd

/-- Claim C1 witness at the concrete scenario of the specification: three
parity bits, data word 1011, error at 0-indexed position 4. -/
theorem single_error_correction_witness :
    ∃ w, encode hcThree.parity_bits [1, 0, 1, 1] = some w ∧
      decode hcThree.check_matrix (errAt w 4) = some (w, [1, 0, 1, 1], 4, true) :=
  single_error_correction 3 hcThree (by decide) [1, 0, 1, 1] (by decide) (by decide)
    4 (by decide)

/-- Claim C4: extracting the data bits from an encoded codeword returns the
data word exactly. -/
theorem encode_extract_roundtrip (m : Nat) (hc : HammingCode)
    (hinit : HammingCode.init m = some hc) (data : List Nat)
    (hlen : data.length = hc.data_length) (hbits : ∀ b ∈ data, b ≤ 1) :
    ∃ w, encode hc.parity_bits data = some w ∧ extract_data_bits w = data := by
  obtain ⟨h2m, hpb, hcl, hdl, hcm, hgm⟩ := HammingCode.init_eq m hc hinit
  rw [hdl] at hlen
  rw [hpb]
  obtain ⟨w, hw, hwl, hwle, hz, hex⟩ := encode_spec m data hlen hbits
  exact ⟨w, hw, hex⟩

/-- Claim C4 witness with three parity bits and data word 0110. -/
theorem encode_extract_roundtrip_witness :
    ∃ w, encode hcThree.parity_bits [0, 1, 1, 0] = some w ∧
      extract_data_bits w = [0, 1, 1, 0] :=
  encode_extract_roundtrip 3 hcThree (by decide) [0, 1, 1, 0] (by decide) (by decide)

/-- Claim C5: every encoded data word passes check, and check is true for a
codeword exactly when every entry of the check-matrix product with the
reversed codeword is zero (check computes a Boolean and never mutates). -/
theorem check_correct (m : Nat) (hc : HammingCode)
    (hinit : HammingCode.init m = some hc) :
    (∀ data : List Nat, data.length = hc.data_length → (∀ b ∈ data, b ≤ 1) →
      ∃ w, encode hc.parity_bits data = some w ∧ check hc.check_matrix w = true) ∧
    (∀ c : List Nat, check hc.check_matrix c = true ↔
      ∀ x ∈ matrix_multiply hc.check_matrix c.reverse, x = 0) := by
  obtain ⟨h2m, hpb, hcl, hdl, hcm, hgm⟩ := HammingCode.init_eq m hc hinit
  constructor
  · intro data hlen hbits
    rw [hdl] at hlen
    rw [hpb, hcm]
    obtain ⟨w, hw, hwl, hwle, hz, hex⟩ := encode_spec m data hlen hbits
    refine ⟨w, hw, ?_⟩
    unfold check
    rw [matrix_multiply_check m w hwl, List.all_eq_true]
    intro x hx
    rw [List.mem_map] at hx
    obtain ⟨i, hi, rfl⟩ := hx
    rw [hz i (List.mem_range.mp hi)]
    rfl
  · intro c
    unfold check
    rw [List.all_eq_true]
    simp only [beq_iff_eq]

/-- Claim C5 witness with three parity bits. -/
theorem check_correct_witness :
    (∀ data : List Nat, data.length = hcThree.data_length →
      (∀ b ∈ data, b ≤ 1) →
      ∃ w, encode hcThree.parity_bits data = some w ∧
        check hcThree.check_matrix w = true) ∧
    (∀ c : List Nat, check hcThree.check_matrix c = true ↔
      ∀ x ∈ matrix_multiply hcThree.check_matrix c.reverse, x = 0) :=
  check_correct 3 hcThree (by decide)

/-- Claim C6: the stored check matrix has parity_bits rows, each row has
codeword_length entries, and the entry of row i at 1-indexed column j is 1
exactly when j has bit i set. -/
theorem check_matrix_structure (m : Nat) (hc : HammingCode)
    (hinit : HammingCode.init m = some hc) :
    hc.check_matrix.length = m ∧
    ∀ i, i < m →
      (hc.check_matrix.getD i []).length = hc.codeword_length ∧
      ∀ j, 1 ≤ j → j ≤ hc.codeword_length →
        ((hc.check_matrix.getD i []).getD (j - 1) 0 = 1 ↔ j &&& (1 <<< i) ≠ 0) := by
  obtain ⟨h2m, hpb, hcl, hdl, hcm, hgm⟩ := HammingCode.init_eq m hc hinit
  rw [hcm, hcl]
  constructor
  · unfold get_check_matrix
    rw [List.length_map, List.length_range]
  · intro i hi
    have hrow : (get_check_matrix m (2 ^ m - 1)).getD i [] =
        (List.range' 1 (2 ^ m - 1)).map fun p =>
          if p &&& (1 <<< i) ≠ 0 then 1 else 0 := by
      unfold get_check_matrix
      rw [List.getD_eq_getElem _ _ (by simpa using hi), List.getElem_map,
        List.getElem_range]
    refine ⟨by rw [hrow]; simp, ?_⟩
    intro j hj1 hj2
    rw [hrow, getD_map_range' _ 1 (2 ^ m - 1) (j - 1) (by omega),
      show 1 + (j - 1) = j from by omega]
    by_cases h : j &&& (1 <<< i) ≠ 0 <;> simp [h]

/-- Claim C6 witness with two parity bits. -/
theorem check_matrix_structure_witness :
    hcTwo.check_matrix.length = 2 ∧
    ∀ i, i < 2 →
      (hcTwo.check_matrix.getD i []).length = hcTwo.codeword_length ∧
      ∀ j, 1 ≤ j → j ≤ hcTwo.codeword_length →
        ((hcTwo.check_matrix.getD i []).getD (j - 1) 0 = 1 ↔
          j &&& (1 <<< i) ≠ 0) :=
  check_matrix_structure 2 hcTwo (by decide)

/-- Claim C8: construction fails exactly when parity_bits is below 2, and
an accepted construction stores codeword_length equal to 2 to the
parity_bits minus 1 and data_length equal to codeword_length minus
parity_bits. -/
theorem constructor_validation (m : Nat) :
    (HammingCode.init m = none ↔ m < 2) ∧
    ∀ hc, HammingCode.init m = some hc →
      hc.parity_bits = m ∧ hc.codeword_length = 2 ^ m - 1 ∧
      hc.data_length = hc.codeword_length - m := by
  constructor
  · constructor
    · intro h
      by_contra hm
      rw [HammingCode.init, if_neg hm] at h
      simp at h
    · intro hm
      rw [HammingCode.init, if_pos hm]
  · intro hc h
    obtain ⟨_, h1, h2, h3, _, _⟩ := HammingCode.init_eq m hc h
    exact ⟨h1, h2, by rw [h3, h2]⟩

/-- Claim C8 witness at the boundary value 2 (the minimum accepted). -/
theorem constructor_validation_witness :
    (HammingCode.init 2 = none ↔ 2 < 2) ∧
    ∀ hc, HammingCode.init 2 = some hc →
      hc.parity_bits = 2 ∧ hc.codeword_length = 2 ^ 2 - 1 ∧
      hc.data_length = hc.codeword_length - 2 :=
  constructor_validation 2

/-- Claim C9: decoding an unmodified encoded word reports no error and
returns the codeword unchanged with the extracted data word. -/
theorem decode_no_error (m : Nat) (hc : HammingCode)
    (hinit : HammingCode.init m = some hc) (data : List Nat)
    (hlen : data.length = hc.data_length) (hbits : ∀ b ∈ data, b ≤ 1) :
    ∃ w, encode hc.parity_bits data = some w ∧
      decode hc.check_matrix w = some (w, data, 0, false) := by
  obtain ⟨h2m, hpb, hcl, hdl, hcm, hgm⟩ := HammingCode.init_eq m hc hinit
  rw [hdl] at hlen
  rw [hpb, hcm]
  obtain ⟨w, hw, hwl, hwle, hz, hex⟩ := encode_spec m data hlen hbits
  refine ⟨w, hw, ?_⟩
  have hd := (decode_clean m w (by omega) hwl hz).1
  rw [hex] at hd
  exact hd

/-- Claim C9 witness with two parity bits and data word 1. -/
theorem decode_no_error_witness :
    ∃ w, encode hcTwo.parity_bits [1] = some w ∧
      decode hcTwo.check_matrix w = some (w, [1], 0, false) :=
  decode_no_error 2 hcTwo (by decide) [1] (by decide) (by decide)

/-- Claim C10: decode reports position 0 both for an unmodified encoded
word (zero syndrome, flag false) and for an error at 0-indexed position 0
(syndrome equal to codeword_length, flag true); only the flag tells the
two outcomes apart. -/
theorem decode_position_zero_ambiguity (m : Nat) (hc : HammingCode)
    (hinit : HammingCode.init m = some hc) (data : List Nat)
    (hlen : data.length = hc.data_length) (hbits : ∀ b ∈ data, b ≤ 1) :
    ∃ w, encode hc.parity_bits data = some w ∧
      decode hc.check_matrix w = some (w, data, 0, false) ∧
      detect_error hc.check_matrix w = some 0 ∧
      decode hc.check_matrix (errAt w 0) = some (w, data, 0, true) ∧
      detect_error hc.check_matrix (errAt w 0) = some hc.codeword_length := by
  obtain ⟨h2m, hpb, hcl, hdl, hcm, hgm⟩ := HammingCode.init_eq m hc hinit
  rw [hdl] at hlen
  rw [hpb, hcm, hcl]
  obtain ⟨w, hw, hwl, hwle, hz, hex⟩ := encode_spec m data hlen hbits
  have hm4 : 4 ≤ 2 ^ m := by
    calc (4 : Nat) = 2 ^ 2 := rfl
    _ ≤ 2 ^ m := Nat.pow_le_pow_right (by omega) h2m
  obtain ⟨hclean, hdet0⟩ := decode_clean m w (by omega) hwl hz
  obtain ⟨hflip, hdetn⟩ := decode_flip m w 0 (by omega) hwl hwle hz (by omega)
  rw [hex] at hclean hflip
  rw [hwl, Nat.sub_zero] at hdetn
  exact ⟨w, hw, hclean, hdet0, hflip, hdetn⟩

/-- Claim C10 witness with three parity bits and data word 0101. -/
theorem decode_position_zero_ambiguity_witness :
    ∃ w, encode hcThree.parity_bits [0, 1, 0, 1] = some w ∧
      decode hcThree.check_matrix w = some (w, [0, 1, 0, 1], 0, false) ∧
      detect_error hcThree.check_matrix w = some 0 ∧
      decode hcThree.check_matrix (errAt w 0) = some (w, [0, 1, 0, 1], 0, true) ∧
      detect_error hcThree.check_matrix (errAt w 0) =
        some hcThree.codeword_length :=
  decode_position_zero_ambiguity 3 hcThree (by decide) [0, 1, 0, 1] (by decide)
    (by decide)

/-- Claim C3 (counterexample): encode performs no length validation; on the
two-bit data word 00 under two parity bits it returns the four-character
word 0000 instead of failing, and that length differs from
codeword_length. -/
theorem encode_wrong_length_counterexample :
    encode hcTwo.parity_bits [0, 0] = some [0, 0, 0, 0] ∧
    ([0, 0] : List Nat).length ≠ hcTwo.data_length ∧
    ([0, 0, 0, 0] : List Nat).length ≠ hcTwo.codeword_length := by
  decide

/-- Claim C3 (amended): encode never raises a length error; whenever it
returns a word for a data word of the wrong length, that word has length
len(data) + parity_bits, which necessarily differs from codeword_length. -/
theorem encode_no_length_validation (m : Nat) (data w : List Nat) (hm : 2 ≤ m)
    (hne : data.length ≠ 2 ^ m - 1 - m) (h : encode m data = some w) :
    w.length = data.length + m ∧ w.length ≠ 2 ^ m - 1 := by
  have hl := encode_length m data w h
  have hm2 : m < 2 ^ m := Nat.lt_two_pow m
  exact ⟨hl, by omega⟩

/-- Claim C3 witness on the concrete wrong-length input. -/
theorem encode_no_length_validation_witness :
    ([0, 0, 0, 0] : List Nat).length = ([0, 0] : List Nat).length + 2 ∧
    ([0, 0, 0, 0] : List Nat).length ≠ 2 ^ 2 - 1 :=
  encode_no_length_validation 2 [0, 0] [0, 0, 0, 0] (by decide) (by decide)
    (by decide)

/-- Claim C7 (counterexample): a vector shorter than the row does not make
matrix_multiply fail; zip truncates and a result is returned. -/
theorem matrix_multiply_shape_counterexample :
    matrix_multiply [[1, 1]] [1] = [1] ∧
    ([1] : List Nat).length ≠ ([1, 1] : List Nat).length := by
  decide

/-- Claim C7 (amended): matrix_multiply is total for all shapes; it returns
one entry per row, and entry i is the sum mod 2 of the pairwise products
over the first min(row length, vector length) columns, which for
conformant shapes is the full row. -/
theorem matrix_multiply_total (M : List (List Nat)) (v : List Nat) :
    (matrix_multiply M v).length = M.length ∧
    ∀ i, i < M.length → (matrix_multiply M v).getD i 0 =
      ((List.range (min (M.getD i []).length v.length)).map fun j =>
        (M.getD i []).getD j 0 * v.getD j 0).sum % 2 := by
  constructor
  · unfold matrix_multiply
    rw [List.length_map]
  · intro i hi
    rw [matrix_multiply_getD M v i hi, zipWith_mul_sum_min]

/-- Claim C7 witness on the shape-mismatched concrete input. -/
theorem matrix_multiply_total_witness :
    (matrix_multiply [[1, 1]] [1]).length = ([[1, 1]] : List (List Nat)).length ∧
    ∀ i, i < ([[1, 1]] : List (List Nat)).length →
      (matrix_multiply [[1, 1]] [1]).getD i 0 =
        ((List.range (min (([[1, 1]] : List (List Nat)).getD i []).length
            ([1] : List Nat).length)).map fun j =>
          (([[1, 1]] : List (List Nat)).getD i []).getD j 0 *
            ([1] : List Nat).getD j 0).sum % 2 :=
  matrix_multiply_total [[1, 1]] [1]

/-- Claim C2 (code bug): with two parity bits and the data word 1, encode
returns 111 while the row-vector product of the data word with the stored
generator matrix is 110 (011 when reversed), so the stored generator matrix
does not reproduce encode under any bit order: the construction appends the
first data_length columns of the check matrix instead of the columns at the
non-power-of-two data positions. -/
theorem generator_matrix_mismatch :
    encode hcTwo.parity_bits [1] = some [1, 1, 1] ∧
    rowVectorMatrixProductSpec [1] hcTwo.generator_matrix = [1, 1, 0] ∧
    rowVectorMatrixProductSpec [1] hcTwo.generator_matrix ≠ [1, 1, 1] ∧
    (rowVectorMatrixProductSpec [1] hcTwo.generator_matrix).reverse ≠ [1, 1, 1] := by
  decide
